import Mathlib

/-!
Verification of the RagFlow log analyzer (docker/analyze.py): a shallow
embedding of the timestamp parser, the HISTORY-block segmenter, the
string-aware balanced-bracket JSON extractor and the conversation
reconstructor, together with theorems about them.

Modelling conventions:
* Python strings are lists of characters (`Str`), instants are `Nat`.
* The standard-library functions `datetime.strptime`, `datetime.now`,
  `json.loads` and the regex-based `extract_context_documents` body are
  passed in as explicit function parameters; everything else is translated
  from the source.
-/

set_option maxRecDepth 100000

namespace RagFlow

abbrev Str := List Char

/-- Whitespace set stripped by Python `str.strip()` (ASCII part). -/
def isSpaceChar (c : Char) : Bool :=
  c == ' ' || c == '\t' || c == '\n' || c == '\r' || c == '\x0b' || c == '\x0c'

/-- Python `str.strip()`: drop whitespace from both ends. -/
def trim (s : Str) : Str :=
  ((s.dropWhile isSpaceChar).reverse.dropWhile isSpaceChar).reverse

/-- Whether `s` starts with the pattern `p` (Python `str.startswith`). -/
def strStartsWith : Str → Str → Bool
  | _, [] => true
  | [], _ :: _ => false
  | c :: cs, p :: ps => c == p && strStartsWith cs ps

/-- First index at or after `k` where `pat` occurs in the remaining text
(Python `str.find`, returning `none` for -1). -/
def findSubstrAux (pat : Str) : Str → Nat → Option Nat
  | [], k => if strStartsWith [] pat then some k else none
  | c :: cs, k =>
    if strStartsWith (c :: cs) pat then some k else findSubstrAux pat cs (k + 1)

/-- Python `content.find(pat)` as an option. -/
def findSubstr (pat s : Str) : Option Nat := findSubstrAux pat s 0

/-- The literal marker string searched for by the analyzer. -/
def histMarker : Str := "[HISTORY][".data

/-- Python test for the marker: the substring check used on every line. -/
def containsHistoryMarker (l : Str) : Bool := (findSubstr histMarker l).isSome

/-- One element of a fixed-shape regex: a digit class or a literal character. -/
inductive MaskElem where
  | digit : MaskElem
  | lit : Char → MaskElem
deriving DecidableEq

/-- Whether one character matches one mask element. -/
def elemMatch : MaskElem → Char → Bool
  | MaskElem.digit, c => c.isDigit
  | MaskElem.lit a, c => c == a

/-- Anchored prefix match of a fixed-shape pattern against a line. -/
def matchMask : List MaskElem → Str → Bool
  | [], _ => true
  | _ :: _, [] => false
  | e :: es, c :: cs => elemMatch e c && matchMask es cs

/-- Mask for the leading-timestamp regex without milliseconds:
the 19-character shape matched by the block-terminating pattern. -/
def tsShortMask : List MaskElem :=
  [MaskElem.digit, MaskElem.digit, MaskElem.digit, MaskElem.digit, MaskElem.lit '-',
   MaskElem.digit, MaskElem.digit, MaskElem.lit '-',
   MaskElem.digit, MaskElem.digit, MaskElem.lit ' ',
   MaskElem.digit, MaskElem.digit, MaskElem.lit ':',
   MaskElem.digit, MaskElem.digit, MaskElem.lit ':',
   MaskElem.digit, MaskElem.digit]

/-- Mask for the millisecond timestamp regex anchored at line start. -/
def tsMsMask : List MaskElem :=
  tsShortMask ++ [MaskElem.lit ',', MaskElem.digit, MaskElem.digit, MaskElem.digit]

/-- Regex match of the block-terminating leading-timestamp pattern. -/
def matchTsShort (l : Str) : Bool := matchMask tsShortMask l

/-- Regex match of the millisecond timestamp pattern, returning group 1
(the first 23 characters) on success. -/
def matchTsMs (l : Str) : Option Str :=
  if matchMask tsMsMask l then some (l.take 23) else none

/-- Source function `parse_timestamp`: try the comma-millisecond format on
the whole string, then the plain format on the first 19 characters, and
fall back to the current wall-clock time.  The two `datetime.strptime`
parsers and `datetime.now()` are passed in as parameters. -/
def parse_timestamp (strptimeMs strptimeS : Str → Option Nat) (now : Nat) (s : Str) : Nat :=
  match strptimeMs s with
  | some t => t
  | none =>
    match strptimeS (s.take 19) with
    | some t => t
    | none => now

/-- Python `content.split(chr 10)` helper, accumulating the current line. -/
def splitLinesAux : Str → Str → List Str
  | [], cur => [cur.reverse]
  | c :: cs, cur =>
    if c == '\n' then cur.reverse :: splitLinesAux cs [] else splitLinesAux cs (c :: cur)

/-- Python `content.split` on newline. -/
def splitLines (content : Str) : List Str := splitLinesAux content []

/-- Python newline `join` over a list of lines. -/
def joinLines : List Str → Str
  | [] => []
  | [l] => l
  | l :: l' :: ls => l ++ '\n' :: joinLines (l' :: ls)

/-- A segmented HISTORY block as collected by `analyze_logfile`. -/
structure TimestampedBlock where
  timestamp : Nat
  timestamp_str : Str
  content : Str
  line_number : Nat
deriving DecidableEq

/-- Inner collection loop of the segmenter: append following lines to the
block until a line matching the leading-timestamp pattern is found; that
line is returned unconsumed together with the rest. -/
def collectBlock : List Str → (List Str × List Str)
  | [] => ([], [])
  | l :: ls =>
    if matchTsShort l then ([], l :: ls)
    else
      let r := collectBlock ls
      (l :: r.1, r.2)

theorem collectBlock_snd_length_le (ls : List Str) : (collectBlock ls).2.length ≤ ls.length := by
  induction ls with
  | nil => simp [collectBlock]
  | cons l ls ih =>
    simp only [collectBlock]
    split
    · simp
    · simpa using Nat.le_succ_of_le ih

theorem collectBlock_eq (ls : List Str) :
    collectBlock ls =
      (ls.takeWhile (fun l => !matchTsShort l), ls.dropWhile (fun l => !matchTsShort l)) := by
  induction ls with
  | nil => simp [collectBlock]
  | cons l ls ih =>
    simp only [collectBlock, List.takeWhile, List.dropWhile]
    cases h : matchTsShort l with
    | true => simp [h]
    | false => simp [h, ih]

/-- Outer scan of the segmenter (`analyze_logfile`, block-collection phase):
walk the lines keeping the current 0-based line index, start a block at
every line that contains the HISTORY marker and matches the millisecond
timestamp regex, and skip every other line.  `pt` is `parse_timestamp`
with its parameters applied. -/
def segmentBlocksAux (pt : Str → Nat) : List Str → Nat → List TimestampedBlock
  | [], _ => []
  | l :: ls, i =>
    if containsHistoryMarker l then
      match matchTsMs l with
      | some tsStr =>
        let r := collectBlock ls
        { timestamp := pt tsStr, timestamp_str := tsStr,
          content := joinLines (l :: r.1), line_number := i } ::
          segmentBlocksAux pt r.2 (i + 1 + r.1.length)
      | none => segmentBlocksAux pt ls (i + 1)
    else segmentBlocksAux pt ls (i + 1)
termination_by ls _ => ls.length
decreasing_by
  · exact Nat.lt_succ_of_le (collectBlock_snd_length_le ls)
  · exact Nat.lt_succ_self _
  · exact Nat.lt_succ_self _

/-- Segmenter over a whole log text. -/
def segmentBlocks (pt : Str → Nat) (content : Str) : List TimestampedBlock :=
  segmentBlocksAux pt (splitLines content) 0

/-- Scanner state of the balanced-bracket extraction loop:
bracket-depth counter, string-open flag and escape-pending flag. -/
structure ScanSt where
  bc : Int
  inStr : Bool
  esc : Bool
deriving DecidableEq

/-- Initial scanner state. -/
def scanInit : ScanSt := { bc := 0, inStr := false, esc := false }

/-- One iteration of the extraction loop's state update (the loop body of
the scan in `analyze_logfile`, without the break). -/
def scanStep (st : ScanSt) (c : Char) : ScanSt :=
  if st.esc then { bc := st.bc, inStr := st.inStr, esc := false }
  else if c == '\\' && st.inStr then { bc := st.bc, inStr := st.inStr, esc := true }
  else
    let inStr2 := if c == '"' && !st.esc then !st.inStr else st.inStr
    if !inStr2 then
      if c == '[' then { bc := st.bc + 1, inStr := inStr2, esc := false }
      else if c == ']' then { bc := st.bc - 1, inStr := inStr2, esc := false }
      else { bc := st.bc, inStr := inStr2, esc := false }
    else { bc := st.bc, inStr := inStr2, esc := false }

/-- The extraction loop of `analyze_logfile`: scan characters from state
`st` at position `k`, and return `some (k+1)` at the first character where
a `]` outside a string literal brings the bracket counter back to zero
(`json_end = k + 1` followed by `break`); `none` when the loop runs off
the end of the text. -/
def jsonEndFrom : ScanSt → Str → Nat → Option Nat
  | _, [], _ => none
  | st, c :: cs, k =>
    if st.esc then jsonEndFrom { bc := st.bc, inStr := st.inStr, esc := false } cs (k + 1)
    else if c == '\\' && st.inStr then
      jsonEndFrom { bc := st.bc, inStr := st.inStr, esc := true } cs (k + 1)
    else
      let inStr2 := if c == '"' && !st.esc then !st.inStr else st.inStr
      if !inStr2 then
        if c == '[' then jsonEndFrom { bc := st.bc + 1, inStr := inStr2, esc := false } cs (k + 1)
        else if c == ']' then
          if st.bc - 1 == 0 then some (k + 1)
          else jsonEndFrom { bc := st.bc - 1, inStr := inStr2, esc := false } cs (k + 1)
        else jsonEndFrom { bc := st.bc, inStr := inStr2, esc := false } cs (k + 1)
      else jsonEndFrom { bc := st.bc, inStr := inStr2, esc := false } cs (k + 1)

/-- Position one past the closing bracket of the payload (`json_end`),
`none` when the loop never breaks. -/
def jsonEnd (s : Str) : Option Nat := jsonEndFrom scanInit s 0

/-- The structurally balanced substring kept by the extractor:
`json_part[:json_end]`, where `json_end` defaults to the whole length. -/
def extractBalanced (s : Str) : Str :=
  match jsonEnd s with
  | some e => s.take e
  | none => s

/-- Reference scan: return one past the first position (from state `st`)
at which the running scanner state has bracket depth zero. -/
def firstZeroAux : ScanSt → Str → Nat → Option Nat
  | _, [], _ => none
  | st, c :: cs, k =>
    if (scanStep st c).bc == 0 then some (k + 1) else firstZeroAux (scanStep st c) cs (k + 1)

/-- Bracket depth of the scan after consuming the first `k` characters:
brackets are counted only outside string literals, and backslash-escaped
characters inside strings never toggle the string-open flag. -/
def depthAt (s : Str) (k : Nat) : Int := (List.foldl scanStep scanInit (s.take k)).bc

/-- A decoded element of a HISTORY JSON array.  `role` and `content` are
optional because Python's `dict.get` returns `None` for missing keys. -/
structure Turn where
  role : Option Str
  content : Option Str
deriving DecidableEq

/-- The exact role string compared against for user turns. -/
def roleUser : Str := "user".data

/-- The exact role string compared against for assistant turns. -/
def roleAssistant : Str := "assistant".data

/-- Python `msg.get('content', '').strip()`. -/
def turnContent (t : Turn) : Str := trim (t.content.getD [])

/-- Python `msg.get('role') == 'user'`. -/
def isUserTurn (t : Turn) : Bool := t.role == some roleUser

/-- Python `msg.get('role') == 'assistant'`. -/
def isAssistantTurn (t : Turn) : Bool := t.role == some roleAssistant

/-- The user-turn content sequence of a decoded block
(`[msg.get('content','').strip() for msg in history_data if msg.get('role')=='user']`). -/
def userMessages (data : List Turn) : List Str :=
  (data.filter isUserTurn).map turnContent

/-- The JSON decoding step shared by the main loop and the context search:
find the HISTORY marker, strip the tail after it, require a `[` start
(synthesizing one in front of a `{` start), cut at the balanced bracket and
decode.  `jsonLoads` stands for Python's `json.loads` restricted to arrays
of role/content objects; it returns `none` where the Python call raises. -/
def decodePayload (jsonLoads : Str → Option (List Turn)) (content : Str) : Option (List Turn) :=
  match findSubstr histMarker content with
  | none => none
  | some idx =>
    let jsonPart := trim (content.drop (idx + histMarker.length))
    if strStartsWith jsonPart ['['] then jsonLoads (extractBalanced jsonPart)
    else if strStartsWith jsonPart ['\x7b'] then jsonLoads (extractBalanced ('[' :: jsonPart))
    else none

/-- A retrieved reference document record. -/
structure ContextDoc where
  id : Str
  title : Str
  content : Str
deriving DecidableEq

/-- One reconstructed user/assistant exchange. -/
structure Message where
  timestamp : Nat
  user_message : Str
  claude_response : Str
  context_documents : List ContextDoc
deriving DecidableEq

/-- One reconstructed conversation. -/
structure Conversation where
  chat_id : Str
  first_message : Str
  start_time : Nat
  message_count : Nat
  messages : List Message
deriving DecidableEq

/-- An entry of the `found_conversations` accumulator. -/
structure FoundConv where
  user_messages : List Str
  conversation : Conversation
  timestamp : Nat
deriving DecidableEq

/-- The sentinel response used when no assistant turn is found. -/
def noResponseSentinel : Str := "[Keine Claude-Antwort gefunden]".data

/-- Content of the first assistant turn of a turn list (inner `for k` loop). -/
def firstAssistantContent : List Turn → Option Str
  | [] => none
  | t :: ts => if isAssistantTurn t then some (turnContent t) else firstAssistantContent ts

/-- The response search of the reconstructor: find the first user turn whose
trimmed content equals `um`, then take the first assistant turn after it;
the sentinel is kept when either search fails. -/
def claudeResponseFor : List Turn → Str → Str
  | [], _ => noResponseSentinel
  | t :: ts, um =>
    if isUserTurn t && (turnContent t == um) then
      match firstAssistantContent ts with
      | some r => r
      | none => noResponseSentinel
    else claudeResponseFor ts um

/-- The context-search predicate on one block: the block decodes, its
user-turn count equals `target`, is positive, and its last user-turn
content equals `um`. -/
def blockMatches (jsonLoads : Str → Option (List Turn)) (target : Nat) (um : Str)
    (b : TimestampedBlock) : Bool :=
  match decodePayload jsonLoads b.content with
  | none => false
  | some d =>
    let sus := userMessages d
    (sus.length == target) && decide (0 < sus.length) && (sus.getLast? == some um)

/-- Context documents for the user turn at 1-based position `target`:
the first block of the descending-sorted block list that satisfies the
search predicate supplies them; otherwise the empty list.  `ectx` stands
for `extract_context_documents`. -/
def contextDocsFor (jsonLoads : Str → Option (List Turn)) (ectx : Str → List ContextDoc)
    (sortedBlocks : List TimestampedBlock) (target : Nat) (um : Str) : List ContextDoc :=
  match sortedBlocks.find? (blockMatches jsonLoads target um) with
  | some b => ectx b.content
  | none => []

/-- Message-construction loop (`for i, user_msg in enumerate(user_messages)`),
carried out with an explicit running index. -/
def buildMessagesAux (jsonLoads : Str → Option (List Turn)) (ectx : Str → List ContextDoc)
    (sortedBlocks : List TimestampedBlock) (ts : Nat) (data : List Turn) :
    Nat → List Str → List Message
  | _, [] => []
  | i, um :: ums =>
    { timestamp := ts, user_message := um,
      claude_response := claudeResponseFor data um,
      context_documents := contextDocsFor jsonLoads ectx sortedBlocks (i + 1) um } ::
      buildMessagesAux jsonLoads ectx sortedBlocks ts data (i + 1) ums

/-- Messages of a newly claimed block. -/
def buildMessages (jsonLoads : Str → Option (List Turn)) (ectx : Str → List ContextDoc)
    (sortedBlocks : List TimestampedBlock) (ts : Nat) (data : List Turn)
    (ums : List Str) : List Message :=
  buildMessagesAux jsonLoads ectx sortedBlocks ts data 0 ums

/-- Synthetic conversation id; `strftime` on the abstract instant is
rendered as its numeral. -/
def convIdStr (n : Nat) (ts : Nat) : Str :=
  "conv_".data ++ (toString n).data ++ "_".data ++ (toString ts).data

/-- The accumulator entry appended for a newly claimed block, with `n` the
number of previously claimed conversations. -/
def mkEntry (jsonLoads : Str → Option (List Turn)) (ectx : Str → List ContextDoc)
    (sortedBlocks : List TimestampedBlock) (n : Nat) (b : TimestampedBlock)
    (data : List Turn) : FoundConv :=
  { user_messages := userMessages data,
    conversation :=
      { chat_id := convIdStr (n + 1) b.timestamp,
        first_message := (userMessages data).headD [],
        start_time := b.timestamp,
        message_count := (userMessages data).length,
        messages :=
          buildMessages jsonLoads ectx sortedBlocks b.timestamp data (userMessages data) },
    timestamp := b.timestamp }

/-- Body of the reconstruction loop for a single block: decode it, skip it
when it has no user turns or its user-turn list prefix-matches an
already-claimed conversation, and otherwise append a newly built
conversation to the accumulator. -/
def processBlock (jsonLoads : Str → Option (List Turn)) (ectx : Str → List ContextDoc)
    (sortedBlocks : List TimestampedBlock) (acc : List FoundConv)
    (b : TimestampedBlock) : List FoundConv :=
  match decodePayload jsonLoads b.content with
  | none => acc
  | some data =>
    let ums := userMessages data
    if ums.isEmpty then acc
    else if acc.any (fun e =>
        decide (ums.length ≤ e.user_messages.length) &&
        (ums == e.user_messages.take ums.length)) then acc
    else acc ++ [mkEntry jsonLoads ectx sortedBlocks acc.length b data]

/-- Stable descending insertion by timestamp: equal timestamps keep their
original relative order, as Python's stable `sort(reverse=True)` does. -/
def insertDesc (b : TimestampedBlock) : List TimestampedBlock → List TimestampedBlock
  | [] => [b]
  | x :: xs => if x.timestamp < b.timestamp then b :: x :: xs else x :: insertDesc b xs

/-- `history_blocks.sort(key=timestamp, reverse=True)`. -/
def sortBlocksDesc (l : List TimestampedBlock) : List TimestampedBlock :=
  l.foldl (fun acc b => insertDesc b acc) []

/-- Stable ascending insertion of accumulator entries by timestamp. -/
def insertAsc (e : FoundConv) : List FoundConv → List FoundConv
  | [] => [e]
  | x :: xs => if e.timestamp < x.timestamp then e :: x :: xs else x :: insertAsc e xs

/-- `found_conversations.sort(key=timestamp)`. -/
def sortFoundAsc (l : List FoundConv) : List FoundConv :=
  l.foldl (fun acc e => insertAsc e acc) []

/-- The reconstruction pass over the segmented blocks: sort them newest
first and fold the per-block loop over them, searching context documents
in the same sorted list. -/
def analyzeBlocks (jsonLoads : Str → Option (List Turn)) (ectx : Str → List ContextDoc)
    (blocks : List TimestampedBlock) : List FoundConv :=
  (sortBlocksDesc blocks).foldl
    (processBlock jsonLoads ectx (sortBlocksDesc blocks)) []

/-- Final id assignment (`conversation_{i+1}` over the ascending-sorted
accumulator). -/
def assignIds : Nat → List FoundConv → List (Str × Conversation)
  | _, [] => []
  | i, e :: es => (("conversation_".data ++ (toString (i + 1)).data), e.conversation) :: assignIds (i + 1) es

/-- The final `self.conversations` mapping, as an association list in
insertion order. -/
def finalConversations (jsonLoads : Str → Option (List Turn)) (ectx : Str → List ContextDoc)
    (blocks : List TimestampedBlock) : List (Str × Conversation) :=
  assignIds 0 (sortFoundAsc (analyzeBlocks jsonLoads ectx blocks))

/-- The whole `analyze_logfile` pass from raw log text to the final
conversation mapping. -/
def analyze_logfile (strptimeMs strptimeS : Str → Option Nat) (now : Nat)
    (jsonLoads : Str → Option (List Turn)) (ectx : Str → List ContextDoc)
    (content : Str) : List (Str × Conversation) :=
  finalConversations jsonLoads ectx
    (segmentBlocks (parse_timestamp strptimeMs strptimeS now) content)

/-- Spec-side helper: the suffix of the turn list strictly after the i-th
(0-based) user turn, `none` when there are not that many user turns. -/
def nthUserSuffix : List Turn → Nat → Option (List Turn)
  | [], _ => none
  | t :: ts, i =>
    if isUserTurn t then
      match i with
      | 0 => some ts
      | j + 1 => nthUserSuffix ts j
    else nthUserSuffix ts i

/-- Modelled from the spec's words (for comparison with the code): the
trimmed content of the first assistant turn that follows the i-th user
turn in the block's turn sequence, the sentinel when none exists. -/
def specResponseAfterIthUser (data : List Turn) (i : Nat) : Str :=
  match nthUserSuffix data i with
  | some ts => (firstAssistantContent ts).getD noResponseSentinel
  | none => noResponseSentinel

/-! ### Concrete fixtures for witnesses and counterexamples -/

/-- Payload of a one-user-turn block. -/
def pHi : Str := "[\x7b\"role\": \"user\", \"content\": \"hi\"\x7d]".data

/-- Payload of the grown snapshot of the same conversation. -/
def pFull : Str :=
  "[\x7b\"role\": \"user\", \"content\": \"hi\"\x7d, \x7b\"role\": \"assistant\", \"content\": \"hello\"\x7d, \x7b\"role\": \"user\", \"content\": \"bye\"\x7d]".data

/-- Payload with the single user turn a. -/
def pA : Str := "[\x7b\"role\": \"user\", \"content\": \"a\"\x7d]".data

/-- Payload with the two user turns a, b. -/
def pAB : Str :=
  "[\x7b\"role\": \"user\", \"content\": \"a\"\x7d, \x7b\"role\": \"user\", \"content\": \"b\"\x7d]".data

/-- Payload with a duplicated user turn, each followed by an assistant turn. -/
def pDup : Str :=
  "[\x7b\"role\": \"user\", \"content\": \"a\"\x7d, \x7b\"role\": \"assistant\", \"content\": \"r1\"\x7d, \x7b\"role\": \"user\", \"content\": \"a\"\x7d, \x7b\"role\": \"assistant\", \"content\": \"r2\"\x7d]".data

/-- Payload whose last turn is a user turn that duplicates an earlier one. -/
def pLastDup : Str :=
  "[\x7b\"role\": \"user\", \"content\": \"a\"\x7d, \x7b\"role\": \"assistant\", \"content\": \"r\"\x7d, \x7b\"role\": \"user\", \"content\": \"a\"\x7d]".data

/-- Payload with no user turn at all. -/
def pNoUser : Str := "[\x7b\"role\": \"assistant\", \"content\": \"r\"\x7d]".data

/-- Decoded turns of `pHi`. -/
def dHi : List Turn := [{ role := some roleUser, content := some "hi".data }]

/-- Decoded turns of `pFull`. -/
def dFull : List Turn :=
  [{ role := some roleUser, content := some "hi".data },
   { role := some roleAssistant, content := some "hello".data },
   { role := some roleUser, content := some "bye".data }]

/-- Decoded turns of `pA`. -/
def dA : List Turn := [{ role := some roleUser, content := some "a".data }]

/-- Decoded turns of `pAB`. -/
def dAB : List Turn :=
  [{ role := some roleUser, content := some "a".data },
   { role := some roleUser, content := some "b".data }]

/-- Decoded turns of `pDup`. -/
def dDup : List Turn :=
  [{ role := some roleUser, content := some "a".data },
   { role := some roleAssistant, content := some "r1".data },
   { role := some roleUser, content := some "a".data },
   { role := some roleAssistant, content := some "r2".data }]

/-- Decoded turns of `pLastDup`. -/
def dLastDup : List Turn :=
  [{ role := some roleUser, content := some "a".data },
   { role := some roleAssistant, content := some "r".data },
   { role := some roleUser, content := some "a".data }]

/-- Decoded turns of `pNoUser`. -/
def dNoUser : List Turn := [{ role := some roleAssistant, content := some "r".data }]

/-- A concrete decoder standing for `json.loads` on the fixture payloads. -/
def jlFix (s : Str) : Option (List Turn) :=
  if s = pHi then some dHi
  else if s = pFull then some dFull
  else if s = pA then some dA
  else if s = pAB then some dAB
  else if s = pDup then some dDup
  else if s = pLastDup then some dLastDup
  else if s = pNoUser then some dNoUser
  else none

/-- A concrete document extractor returning no documents. -/
def ectx0 : Str → List ContextDoc := fun _ => []

/-- Raw block content around a payload: the HISTORY marker shares its final
bracket with the payload's opening bracket, as in the log format. -/
def mkContent (p : Str) : Str := "[HISTORY]".data ++ p

/-- Fixture block: oldest snapshot of the hi conversation. -/
def bHi : TimestampedBlock :=
  { timestamp := 1, timestamp_str := "t1".data, content := mkContent pHi, line_number := 0 }

/-- Fixture block: middle snapshot. -/
def bFull2 : TimestampedBlock :=
  { timestamp := 2, timestamp_str := "t2".data, content := mkContent pFull, line_number := 1 }

/-- Fixture block: newest snapshot, identical content to `bFull2`. -/
def bFull3 : TimestampedBlock :=
  { timestamp := 3, timestamp_str := "t3".data, content := mkContent pFull, line_number := 2 }

/-- Fixture block: short snapshot bearing the newer timestamp. -/
def bA2 : TimestampedBlock :=
  { timestamp := 2, timestamp_str := "tA".data, content := mkContent pA, line_number := 0 }

/-- Fixture block: longer snapshot bearing the older timestamp. -/
def bAB1 : TimestampedBlock :=
  { timestamp := 1, timestamp_str := "tB".data, content := mkContent pAB, line_number := 1 }

/-- Fixture block holding the duplicated-user-turn payload. -/
def bDup : TimestampedBlock :=
  { timestamp := 5, timestamp_str := "tD".data, content := mkContent pDup, line_number := 0 }

/-- Fixture block whose last decoded turn is a duplicated user turn. -/
def bLastDup : TimestampedBlock :=
  { timestamp := 5, timestamp_str := "tL".data, content := mkContent pLastDup, line_number := 0 }

/-- Fixture block with no user turn. -/
def bNoUser : TimestampedBlock :=
  { timestamp := 4, timestamp_str := "tN".data, content := mkContent pNoUser, line_number := 0 }

/-! ### Supporting lemmas -/

theorem userMessages_cons (t : Turn) (ts : List Turn) :
    userMessages (t :: ts) =
      if isUserTurn t then turnContent t :: userMessages ts else userMessages ts := by
  by_cases h : isUserTurn t <;> simp [userMessages, List.filter_cons, h]

theorem userMessages_append (l1 l2 : List Turn) :
    userMessages (l1 ++ l2) = userMessages l1 ++ userMessages l2 := by
  simp [userMessages, List.filter_append]

theorem buildMessagesAux_length (jl : Str → Option (List Turn)) (ectx : Str → List ContextDoc)
    (sb : List TimestampedBlock) (ts : Nat) (data : List Turn) :
    ∀ (ums : List Str) (i : Nat),
      (buildMessagesAux jl ectx sb ts data i ums).length = ums.length := by
  intro ums
  induction ums with
  | nil => intro i; rfl
  | cons um ums ih => intro i; simp [buildMessagesAux, ih]

theorem buildMessagesAux_get? (jl : Str → Option (List Turn)) (ectx : Str → List ContextDoc)
    (sb : List TimestampedBlock) (ts : Nat) (data : List Turn) :
    ∀ (ums : List Str) (i0 i : Nat),
      (buildMessagesAux jl ectx sb ts data i0 ums).get? i =
        (ums.get? i).map (fun um =>
          { timestamp := ts, user_message := um,
            claude_response := claudeResponseFor data um,
            context_documents := contextDocsFor jl ectx sb (i0 + i + 1) um }) := by
  intro ums
  induction ums with
  | nil => intro i0 i; rfl
  | cons um ums ih =>
    intro i0 i
    cases i with
    | zero => rfl
    | succ j =>
      have := ih (i0 + 1) j
      have harith : i0 + 1 + j + 1 = i0 + (j + 1) + 1 := by omega
      simp only [buildMessagesAux, List.get?_cons_succ]
      rw [this, harith]

theorem buildMessagesAux_getLast_resp (jl : Str → Option (List Turn))
    (ectx : Str → List ContextDoc) (sb : List TimestampedBlock) (ts : Nat)
    (data : List Turn) :
    ∀ (ums : List Str) (i0 : Nat),
      (buildMessagesAux jl ectx sb ts data i0 ums).getLast?.map
          (fun m => m.claude_response) =
        (ums.getLast?).map (claudeResponseFor data) := by
  intro ums
  induction ums with
  | nil => intro i0; rfl
  | cons um ums ih =>
    intro i0
    cases ums with
    | nil => rfl
    | cons um' ums' =>
      have := ih (i0 + 1)
      simp only [buildMessagesAux] at this ⊢
      rw [List.getLast?_cons_cons, List.getLast?_cons_cons, this]

theorem claudeResponseFor_last_fresh (pre : List Turn) (t : Turn)
    (hu : isUserTurn t = true) (hfresh : turnContent t ∉ userMessages pre) :
    claudeResponseFor (pre ++ [t]) (turnContent t) = noResponseSentinel := by
  induction pre with
  | nil => simp [claudeResponseFor, hu, firstAssistantContent]
  | cons p pre ih =>
    rw [userMessages_cons] at hfresh
    by_cases hp : isUserTurn p
    · rw [if_pos hp] at hfresh
      have h1 : turnContent t ≠ turnContent p :=
        fun hc => hfresh (hc ▸ List.mem_cons_self _ _)
      have h2 : turnContent t ∉ userMessages pre :=
        fun hc => hfresh (List.mem_cons_of_mem _ hc)
      have hne : ¬(turnContent p == turnContent t) = true := by
        simp only [beq_iff_eq]
        exact fun hc => h1 hc.symm
      simp only [List.cons_append, claudeResponseFor]
      rw [if_neg (by simp [hne])]
      exact ih h2
    · rw [if_neg hp] at hfresh
      simp only [List.cons_append, claudeResponseFor]
      rw [if_neg (by simp [hp])]
      exact ih hfresh

theorem nthUserSuffix_cons_user (t : Turn) (ts : List Turn) (hu : isUserTurn t = true) :
    nthUserSuffix (t :: ts) 0 = some ts ∧
      ∀ j, nthUserSuffix (t :: ts) (j + 1) = nthUserSuffix ts j := by
  constructor
  · simp [nthUserSuffix, hu]
  · intro j; simp [nthUserSuffix, hu]

theorem claudeResponseFor_nodup (data : List Turn) :
    (userMessages data).Nodup →
    ∀ (i : Nat) (um : Str), (userMessages data).get? i = some um →
      claudeResponseFor data um = specResponseAfterIthUser data i := by
  induction data with
  | nil => intro _ i um hget; exact absurd hget (by simp [userMessages])
  | cons t ts ih =>
    intro hnd i um hget
    by_cases hu : isUserTurn t
    · rw [userMessages_cons, if_pos hu] at hnd hget
      cases i with
      | zero =>
        rw [List.get?_cons_zero] at hget
        cases hget
        simp only [claudeResponseFor, hu, beq_self_eq_true, Bool.and_self, if_pos]
        simp only [specResponseAfterIthUser, nthUserSuffix, hu, if_pos]
        cases hfa : firstAssistantContent ts <;> simp [hfa]
      | succ j =>
        rw [List.get?_cons_succ] at hget
        have hmem : um ∈ userMessages ts := List.get?_mem hget
        have hne : ¬(turnContent t == um) = true := by
          simp only [beq_iff_eq]
          intro hc
          exact (List.nodup_cons.mp hnd).1 (hc ▸ hmem)
        simp only [claudeResponseFor]
        rw [if_neg (by simp [hne])]
        simp only [specResponseAfterIthUser, nthUserSuffix, hu, if_pos]
        exact ih (List.nodup_cons.mp hnd).2 j um hget
    · rw [userMessages_cons, if_neg hu] at hnd hget
      simp only [claudeResponseFor]
      rw [if_neg (by simp [hu])]
      have hspec : specResponseAfterIthUser (t :: ts) i = specResponseAfterIthUser ts i := by
        simp [specResponseAfterIthUser, nthUserSuffix, hu]
      rw [hspec]
      exact ih hnd i um hget

theorem processBlock_cases (jl : Str → Option (List Turn)) (ectx : Str → List ContextDoc)
    (sb : List TimestampedBlock) (acc : List FoundConv) (b : TimestampedBlock) :
    processBlock jl ectx sb acc b = acc ∨
    ∃ data, decodePayload jl b.content = some data ∧ userMessages data ≠ [] ∧
      processBlock jl ectx sb acc b = acc ++ [mkEntry jl ectx sb acc.length b data] := by
  cases hd : decodePayload jl b.content with
  | none => left; simp [processBlock, hd]
  | some data =>
    by_cases he : (userMessages data).isEmpty
    · left; simp [processBlock, hd, he]
    · by_cases hs : (List.any acc (fun e =>
          decide ((userMessages data).length ≤ e.user_messages.length) &&
          (userMessages data == e.user_messages.take (userMessages data).length))) = true
      · left; simp [processBlock, hd, he, hs]
      · right
        exact ⟨data, rfl, by simpa [List.isEmpty_iff] using he,
          by simp [processBlock, hd, he, hs]⟩

theorem processBlock_append_inv (jl : Str → Option (List Turn)) (ectx : Str → List ContextDoc)
    (sb : List TimestampedBlock) (acc : List FoundConv) (b : TimestampedBlock)
    (e : FoundConv) (h : processBlock jl ectx sb acc b = acc ++ [e]) :
    ∃ data, decodePayload jl b.content = some data ∧ userMessages data ≠ [] ∧
      e = mkEntry jl ectx sb acc.length b data := by
  rcases processBlock_cases jl ectx sb acc b with hc | ⟨data, hd, hne, hc⟩
  · rw [hc] at h
    have : acc.length = (acc ++ [e]).length := by rw [← h]
    simp at this
  · rw [hc] at h
    have := List.append_cancel_left h
    simp only [List.cons.injEq] at this
    exact ⟨data, hd, hne, this.1.symm⟩

theorem foldl_processBlock_suffix (jl : Str → Option (List Turn))
    (ectx : Str → List ContextDoc) (sb : List TimestampedBlock) :
    ∀ (L : List TimestampedBlock) (acc : List FoundConv),
      ∃ tail, L.foldl (processBlock jl ectx sb) acc = acc ++ tail := by
  intro L
  induction L with
  | nil => intro acc; exact ⟨[], by simp⟩
  | cons b L ih =>
    intro acc
    rcases processBlock_cases jl ectx sb acc b with hc | ⟨data, _, _, hc⟩
    · rcases ih (processBlock jl ectx sb acc b) with ⟨tail, ht⟩
      exact ⟨tail, by simpa [hc] using ht⟩
    · rcases ih (processBlock jl ectx sb acc b) with ⟨tail, ht⟩
      refine ⟨[mkEntry jl ectx sb acc.length b data] ++ tail, ?_⟩
      rw [List.foldl_cons, ht, hc, List.append_assoc]

theorem foldl_processBlock_mem (jl : Str → Option (List Turn))
    (ectx : Str → List ContextDoc) (sb : List TimestampedBlock)
    (L0 : List TimestampedBlock) (P : FoundConv → Prop)
    (hP : ∀ (n : Nat) (b : TimestampedBlock) (data : List Turn), b ∈ L0 →
      decodePayload jl b.content = some data → userMessages data ≠ [] →
      P (mkEntry jl ectx sb n b data)) :
    ∀ (L : List TimestampedBlock) (acc : List FoundConv), (∀ b ∈ L, b ∈ L0) →
      (∀ e ∈ acc, P e) → ∀ e ∈ L.foldl (processBlock jl ectx sb) acc, P e := by
  intro L
  induction L with
  | nil => intro acc _ hacc e he; exact hacc e he
  | cons b L ih =>
    intro acc hsub hacc e he
    rw [List.foldl_cons] at he
    refine ih (processBlock jl ectx sb acc b)
      (fun x hx => hsub x (List.mem_cons_of_mem _ hx)) ?_ e he
    intro x hx
    rcases processBlock_cases jl ectx sb acc b with hc | ⟨data, hd, hne, hc⟩
    · rw [hc] at hx; exact hacc x hx
    · rw [hc] at hx
      rcases List.mem_append.mp hx with hx' | hx'
      · exact hacc x hx'
      · rcases List.mem_singleton.mp hx' with rfl
        exact hP acc.length b data (hsub b (List.mem_cons_self _ _)) hd hne

theorem mem_insertDesc (x b : TimestampedBlock) (l : List TimestampedBlock) :
    x ∈ insertDesc b l ↔ x = b ∨ x ∈ l := by
  induction l with
  | nil => simp [insertDesc]
  | cons y l ih =>
    simp only [insertDesc]
    split
    · simp
    · simp only [List.mem_cons, ih]
      tauto

theorem mem_sortBlocksDesc (x : TimestampedBlock) (l : List TimestampedBlock) :
    x ∈ sortBlocksDesc l ↔ x ∈ l := by
  have key : ∀ (l acc : List TimestampedBlock),
      x ∈ l.foldl (fun acc b => insertDesc b acc) acc ↔ x ∈ acc ∨ x ∈ l := by
    intro l
    induction l with
    | nil => intro acc; simp
    | cons b l ih =>
      intro acc
      rw [List.foldl_cons, ih, mem_insertDesc]
      simp only [List.mem_cons]
      tauto
  rw [sortBlocksDesc, key]
  simp

theorem pairwise_insertDesc (b : TimestampedBlock) (l : List TimestampedBlock)
    (hl : l.Pairwise (fun a c => c.timestamp ≤ a.timestamp)) :
    (insertDesc b l).Pairwise (fun a c => c.timestamp ≤ a.timestamp) := by
  induction l with
  | nil => simp [insertDesc]
  | cons x l ih =>
    rcases List.pairwise_cons.mp hl with ⟨hx, hl'⟩
    simp only [insertDesc]
    split
    · rename_i hlt
      refine List.pairwise_cons.mpr ⟨?_, hl⟩
      intro y hy
      rcases List.mem_cons.mp hy with rfl | hy'
      · exact Nat.le_of_lt hlt
      · exact Nat.le_trans (hx y hy') (Nat.le_of_lt hlt)
    · rename_i hge
      refine List.pairwise_cons.mpr ⟨?_, ih hl'⟩
      intro y hy
      rcases (mem_insertDesc y b l).mp hy with rfl | hy'
      · exact Nat.le_of_not_lt hge
      · exact hx y hy'

theorem pairwise_sortBlocksDesc (l : List TimestampedBlock) :
    (sortBlocksDesc l).Pairwise (fun a c => c.timestamp ≤ a.timestamp) := by
  have key : ∀ (l acc : List TimestampedBlock),
      acc.Pairwise (fun a c => c.timestamp ≤ a.timestamp) →
      (l.foldl (fun acc b => insertDesc b acc) acc).Pairwise
        (fun a c => c.timestamp ≤ a.timestamp) := by
    intro l
    induction l with
    | nil => intro acc h; simpa using h
    | cons b l ih =>
      intro acc h
      rw [List.foldl_cons]
      exact ih _ (pairwise_insertDesc b acc h)
  exact key l [] (by simp)

theorem mem_insertAsc (x e : FoundConv) (l : List FoundConv) :
    x ∈ insertAsc e l ↔ x = e ∨ x ∈ l := by
  induction l with
  | nil => simp [insertAsc]
  | cons y l ih =>
    simp only [insertAsc]
    split
    · simp
    · simp only [List.mem_cons, ih]
      tauto

theorem mem_sortFoundAsc (x : FoundConv) (l : List FoundConv) :
    x ∈ sortFoundAsc l ↔ x ∈ l := by
  have key : ∀ (l acc : List FoundConv),
      x ∈ l.foldl (fun acc e => insertAsc e acc) acc ↔ x ∈ acc ∨ x ∈ l := by
    intro l
    induction l with
    | nil => intro acc; simp
    | cons e l ih =>
      intro acc
      rw [List.foldl_cons, ih, mem_insertAsc]
      simp only [List.mem_cons]
      tauto
  rw [sortFoundAsc, key]
  simp

theorem mem_assignIds (p : Str × Conversation) :
    ∀ (i : Nat) (l : List FoundConv), p ∈ assignIds i l → ∃ e ∈ l, p.2 = e.conversation := by
  intro i l
  induction l generalizing i with
  | nil => intro h; exact absurd h (by simp [assignIds])
  | cons e l ih =>
    intro h
    rcases List.mem_cons.mp h with rfl | h'
    · exact ⟨e, List.mem_cons_self _ _, rfl⟩
    · rcases ih (i + 1) h' with ⟨e', he', hp⟩
      exact ⟨e', List.mem_cons_of_mem _ he', hp⟩

theorem analyzeBlocks_mem (jl : Str → Option (List Turn)) (ectx : Str → List ContextDoc)
    (bs : List TimestampedBlock) (e : FoundConv) (he : e ∈ analyzeBlocks jl ectx bs) :
    ∃ (n : Nat) (b : TimestampedBlock) (data : List Turn),
      b ∈ sortBlocksDesc bs ∧ decodePayload jl b.content = some data ∧
      userMessages data ≠ [] ∧ e = mkEntry jl ectx (sortBlocksDesc bs) n b data := by
  refine foldl_processBlock_mem jl ectx (sortBlocksDesc bs) (sortBlocksDesc bs)
    (fun e => ∃ n b data, b ∈ sortBlocksDesc bs ∧ decodePayload jl b.content = some data ∧
      userMessages data ≠ [] ∧ e = mkEntry jl ectx (sortBlocksDesc bs) n b data)
    ?_ (sortBlocksDesc bs) [] (fun _ hb => hb) (by simp) e he
  intro n b data hb hd hne
  exact ⟨n, b, data, hb, hd, hne, rfl⟩

theorem finalConversations_mem (jl : Str → Option (List Turn))
    (ectx : Str → List ContextDoc) (bs : List TimestampedBlock)
    (p : Str × Conversation) (hp : p ∈ finalConversations jl ectx bs) :
    ∃ (n : Nat) (b : TimestampedBlock) (data : List Turn),
      b ∈ sortBlocksDesc bs ∧ decodePayload jl b.content = some data ∧
      userMessages data ≠ [] ∧
      p.2 = (mkEntry jl ectx (sortBlocksDesc bs) n b data).conversation := by
  rcases mem_assignIds p 0 _ hp with ⟨e, he, hpe⟩
  rcases analyzeBlocks_mem jl ectx bs e ((mem_sortFoundAsc e _).mp he) with
    ⟨n, b, data, hb, hd, hne, hee⟩
  exact ⟨n, b, data, hb, hd, hne, by rw [hpe, hee]⟩

/-- The exact break condition of the extraction loop, as a predicate on
the state before the character: the quote toggle cannot fire on a bracket
character, so the loop breaks exactly on an unescaped closing bracket
outside a string when the counter stands at one. -/
def scanBreak (st : ScanSt) (c : Char) : Bool :=
  !st.esc && !st.inStr && (c == ']') && (st.bc == 1)

theorem jsonEndFrom_step (st : ScanSt) (c : Char) (cs : Str) (k : Nat) :
    jsonEndFrom st (c :: cs) k =
      if scanBreak st c then some (k + 1) else jsonEndFrom (scanStep st c) cs (k + 1) := by
  rcases st with ⟨bc, inStr, esc⟩
  cases esc with
  | true => simp [jsonEndFrom, scanStep, scanBreak]
  | false =>
    cases inStr with
    | true =>
      by_cases hb : c = '\\'
      · subst hb; simp [jsonEndFrom, scanStep, scanBreak]
      · by_cases hq : c = '"'
        · subst hq; simp [jsonEndFrom, scanStep, scanBreak]
        · simp [jsonEndFrom, scanStep, scanBreak,
            beq_eq_false_iff_ne.mpr hb, beq_eq_false_iff_ne.mpr hq]
    | false =>
      by_cases hq : c = '"'
      · subst hq; simp [jsonEndFrom, scanStep, scanBreak]
      · by_cases hl : c = '['
        · subst hl; simp [jsonEndFrom, scanStep, scanBreak]
        · by_cases hr : c = ']'
          · subst hr
            have hbeq : ((bc - 1 == 0) : Bool) = (bc == 1) := by
              by_cases h1 : bc = 1
              · simp [h1]
              · have h2 : bc - 1 ≠ 0 := by omega
                simp [beq_eq_false_iff_ne.mpr h1, beq_eq_false_iff_ne.mpr h2]
            by_cases h1 : bc = 1
            · simp [jsonEndFrom, scanStep, scanBreak, h1]
            · have h2 : bc - 1 ≠ 0 := by omega
              simp [jsonEndFrom, scanStep, scanBreak,
                beq_eq_false_iff_ne.mpr h1, beq_eq_false_iff_ne.mpr h2]
          · simp [jsonEndFrom, scanStep, scanBreak, beq_eq_false_iff_ne.mpr hq,
              beq_eq_false_iff_ne.mpr hl, beq_eq_false_iff_ne.mpr hr]

theorem scanStep_bc_mem (st : ScanSt) (c : Char) :
    (scanStep st c).bc = st.bc ∨ (scanStep st c).bc = st.bc + 1 ∨
      (scanStep st c).bc = st.bc - 1 := by
  rcases st with ⟨bc, inStr, esc⟩
  unfold scanStep
  cases esc <;> cases inStr <;> split_ifs <;> simp

theorem scanBreak_eq (st : ScanSt) (c : Char) (h : 1 ≤ st.bc) :
    scanBreak st c = ((scanStep st c).bc == 0) := by
  rcases st with ⟨bc, inStr, esc⟩
  simp only [ScanSt.bc] at h
  have hbc0 : ((bc == 0) : Bool) = false := beq_eq_false_iff_ne.mpr (by omega)
  have hbc1 : ((bc + 1 == 0) : Bool) = false := beq_eq_false_iff_ne.mpr (by omega)
  cases esc with
  | true => simp [scanStep, scanBreak, hbc0]
  | false =>
    cases inStr with
    | true =>
      by_cases hb : c = '\\'
      · subst hb; simp [scanStep, scanBreak, hbc0]
      · by_cases hq : c = '"'
        · subst hq; simp [scanStep, scanBreak, hbc0]
        · simp [scanStep, scanBreak, beq_eq_false_iff_ne.mpr hb,
            beq_eq_false_iff_ne.mpr hq, hbc0]
    | false =>
      by_cases hq : c = '"'
      · subst hq; simp [scanStep, scanBreak, hbc0]
      · by_cases hl : c = '['
        · subst hl; simp [scanStep, scanBreak, hbc1]
        · by_cases hr : c = ']'
          · subst hr
            by_cases h1 : bc = 1
            · simp [scanStep, scanBreak, h1]
            · have h2 : bc - 1 ≠ 0 := by omega
              simp [scanStep, scanBreak, beq_eq_false_iff_ne.mpr h1,
                beq_eq_false_iff_ne.mpr h2]
          · simp [scanStep, scanBreak, beq_eq_false_iff_ne.mpr hq,
              beq_eq_false_iff_ne.mpr hl, beq_eq_false_iff_ne.mpr hr, hbc0]

theorem jsonEndFrom_eq_firstZero (cs : Str) :
    ∀ (st : ScanSt) (k : Nat), 1 ≤ st.bc →
      jsonEndFrom st cs k = firstZeroAux st cs k := by
  induction cs with
  | nil => intro st k _; rfl
  | cons c cs ih =>
    intro st k h
    rw [jsonEndFrom_step, scanBreak_eq st c h]
    show _ = firstZeroAux st (c :: cs) k
    rw [firstZeroAux]
    by_cases h0 : (((scanStep st c).bc == 0) : Bool) = true
    · rw [if_pos h0, if_pos h0]
    · rw [if_neg h0, if_neg h0]
      refine ih (scanStep st c) (k + 1) ?_
      have hne : (scanStep st c).bc ≠ 0 := by
        intro hc
        exact h0 (by simp [hc])
      rcases scanStep_bc_mem st c with h' | h' | h' <;> omega

theorem firstZeroAux_some_iff (cs : Str) :
    ∀ (st : ScanSt) (k v : Nat),
      firstZeroAux st cs k = some v ↔
        ∃ n, v = k + n ∧ 1 ≤ n ∧ n ≤ cs.length ∧
          (List.foldl scanStep st (cs.take n)).bc = 0 ∧
          ∀ m, 1 ≤ m → m < n → (List.foldl scanStep st (cs.take m)).bc ≠ 0 := by
  induction cs with
  | nil =>
    intro st k v
    simp only [firstZeroAux, List.length_nil]
    constructor
    · intro h; exact absurd h (by simp)
    · intro ⟨n, _, h1, h2, _⟩; omega
  | cons c cs ih =>
    intro st k v
    rw [firstZeroAux]
    by_cases h0 : (((scanStep st c).bc == 0) : Bool) = true
    · rw [if_pos h0]
      have hz : (scanStep st c).bc = 0 := by simpa using h0
      constructor
      · intro h
        have hv : v = k + 1 := by
          have := Option.some.inj h
          omega
        exact ⟨1, hv, Nat.le_refl _, by simp, by simpa [List.foldl] using hz,
          fun m h1 h2 => absurd (Nat.lt_of_lt_of_le h2 h1) (Nat.lt_irrefl _)⟩
      · intro ⟨n, hv, h1, h2, hbc, hmin⟩
        have hn1 : n = 1 := by
          by_contra hn
          have hge : 2 ≤ n := by omega
          exact hmin 1 (Nat.le_refl _) hge (by simpa [List.foldl] using hz)
        subst hn1
        simp [hv]
    · rw [if_neg h0]
      have hz : (scanStep st c).bc ≠ 0 := fun hc => h0 (by simp [hc])
      rw [ih (scanStep st c) (k + 1) v]
      constructor
      · intro ⟨n, hv, h1, h2, hbc, hmin⟩
        refine ⟨n + 1, by omega, by omega, by simpa using h2, ?_, ?_⟩
        · simpa [List.take_succ_cons, List.foldl_cons] using hbc
        · intro m hm1 hmn
          cases m with
          | zero => omega
          | succ m' =>
            cases m' with
            | zero => simpa [List.foldl] using hz
            | succ m'' =>
              have := hmin (m'' + 1) (by omega) (by omega)
              simpa [List.take_succ_cons, List.foldl_cons] using this
      · intro ⟨n, hv, h1, h2, hbc, hmin⟩
        cases n with
        | zero => omega
        | succ n' =>
          have hn' : 1 ≤ n' := by
            by_contra hn
            have : n' = 0 := by omega
            subst this
            exact hz (by simpa [List.take_succ_cons, List.foldl] using hbc)
          refine ⟨n', by omega, hn', by simpa using h2, ?_, ?_⟩
          · simpa [List.take_succ_cons, List.foldl_cons] using hbc
          · intro m hm1 hmn
            have := hmin (m + 1) (by omega) (by omega)
            simpa [List.take_succ_cons, List.foldl_cons] using this

theorem processBlock_discard_iff (jl : Str → Option (List Turn))
    (ectx : Str → List ContextDoc) (sb : List TimestampedBlock)
    (acc : List FoundConv) (b : TimestampedBlock) (data : List Turn)
    (hdec : decodePayload jl b.content = some data)
    (hne : userMessages data ≠ []) :
    processBlock jl ectx sb acc b = acc ↔
      ∃ e ∈ acc, (userMessages data).length ≤ e.user_messages.length ∧
        userMessages data = e.user_messages.take (userMessages data).length := by
  have hemp : (userMessages data).isEmpty = false := by
    simp [List.isEmpty_iff, hne]
  constructor
  · intro h
    by_cases hs : (List.any acc (fun e =>
        decide ((userMessages data).length ≤ e.user_messages.length) &&
        (userMessages data == e.user_messages.take (userMessages data).length))) = true
    · rcases List.any_eq_true.mp hs with ⟨e, he, hcond⟩
      rcases (Bool.and_eq_true _ _).mp hcond with ⟨h1, h2⟩
      exact ⟨e, he, of_decide_eq_true h1, by simpa [beq_iff_eq] using h2⟩
    · exfalso
      have hc : processBlock jl ectx sb acc b =
          acc ++ [mkEntry jl ectx sb acc.length b data] := by
        simp [processBlock, hdec, hemp, hs]
      rw [hc] at h
      have := congrArg List.length h
      simp at this
  · intro hex
    rcases hex with ⟨e, he, h1, h2⟩
    have hs : (List.any acc (fun e =>
        decide ((userMessages data).length ≤ e.user_messages.length) &&
        (userMessages data == e.user_messages.take (userMessages data).length))) = true :=
      List.any_eq_true.mpr ⟨e, he, by simp [h1, ← h2]⟩
    simp [processBlock, hdec, hemp, hs]

theorem find?_first_max (p : TimestampedBlock → Bool) (l : List TimestampedBlock)
    (hl : l.Pairwise (fun a c => c.timestamp ≤ a.timestamp)) (b : TimestampedBlock)
    (hf : l.find? p = some b) :
    ∀ b2 ∈ l, p b2 = true → b2.timestamp ≤ b.timestamp := by
  induction l with
  | nil => exact absurd hf (by simp)
  | cons x xs ih =>
    rcases List.pairwise_cons.mp hl with ⟨hx, hxs⟩
    intro b2 hb2 hp2
    cases hpx : p x with
    | true =>
      rw [List.find?_cons_of_pos _ hpx] at hf
      rcases Option.some.inj hf with rfl
      rcases List.mem_cons.mp hb2 with rfl | hb2'
      · exact Nat.le_refl _
      · exact hx b2 hb2'
    | false =>
      rw [List.find?_cons_of_neg _ (by simp [hpx])] at hf
      rcases List.mem_cons.mp hb2 with rfl | hb2'
      · rw [hpx] at hp2; exact absurd hp2 (by simp)
      · exact ih hxs hf b2 hb2' hp2

/-! ### Claim theorems -/

/-- C9: for each user turn of a claimed conversation, the context
documents come from the first block of the descending-sorted block list
whose decoded user-turn count equals the turn's 1-based position and whose
last user-turn content equals this turn's content; that block's timestamp
is maximal among all matching blocks, and when no block matches the
document list is empty. -/
theorem C9_context_from_newest_matching_block (jl : Str → Option (List Turn))
    (ectx : Str → List ContextDoc) (bs : List TimestampedBlock) (e : FoundConv)
    (he : e ∈ analyzeBlocks jl ectx bs) (i : Nat) (m : Message)
    (hm : e.conversation.messages.get? i = some m) :
    (m.context_documents =
      match (sortBlocksDesc bs).find? (blockMatches jl (i + 1) m.user_message) with
      | some b => ectx b.content
      | none => []) ∧
    (∀ b, (sortBlocksDesc bs).find? (blockMatches jl (i + 1) m.user_message) = some b →
      ∀ b2 ∈ bs, blockMatches jl (i + 1) m.user_message b2 = true →
        b2.timestamp ≤ b.timestamp) := by
  rcases analyzeBlocks_mem jl ectx bs e he with ⟨n, b0, data, hb0, hdec, hne, rfl⟩
  simp only [mkEntry, buildMessages] at hm
  rw [buildMessagesAux_get?] at hm
  cases hum : (userMessages data).get? i with
  | none => rw [hum] at hm; exact absurd hm (by simp)
  | some um =>
    rw [hum] at hm
    simp only [Option.map_some', Nat.zero_add] at hm
    rcases Option.some.inj hm with rfl
    constructor
    · rfl
    · intro b hfind b2 hb2 hmatch
      exact find?_first_max _ _ (pairwise_sortBlocksDesc bs) b hfind b2
        ((mem_sortBlocksDesc b2 bs).mpr hb2) hmatch

/-- C9 witness: in the single-block fixture run, the sole message's
context documents come from the matching fixture block itself. -/
theorem C9_witness :
    ({ timestamp := 2, user_message := "a".data, claude_response := noResponseSentinel,
       context_documents := [] } : Message).context_documents =
      match (sortBlocksDesc [bA2]).find? (blockMatches jlFix 1 "a".data) with
      | some b => ectx0 b.content
      | none => [] :=
  (C9_context_from_newest_matching_block jlFix ectx0 [bA2]
    (mkEntry jlFix ectx0 (sortBlocksDesc [bA2]) 0 bA2 dA) (by decide) 0 _ (by decide)).1

/-- C7: for every input string, `parse_timestamp` is total and never
raises: it returns the result of parsing the full string in the
comma-millisecond format if that succeeds, otherwise the result of parsing
the first 19 characters in the second format if that succeeds, otherwise
the current wall-clock time. -/
theorem C7_parse_timestamp_total (strptimeMs strptimeS : Str → Option Nat) (now : Nat)
    (s : Str) :
    (∃ t, strptimeMs s = some t ∧ parse_timestamp strptimeMs strptimeS now s = t) ∨
    (strptimeMs s = none ∧
      ∃ t, strptimeS (s.take 19) = some t ∧ parse_timestamp strptimeMs strptimeS now s = t) ∨
    (strptimeMs s = none ∧ strptimeS (s.take 19) = none ∧
      parse_timestamp strptimeMs strptimeS now s = now) := by
  unfold parse_timestamp
  cases h1 : strptimeMs s with
  | some t => exact Or.inl ⟨t, rfl, rfl⟩
  | none =>
    cases h2 : strptimeS (s.take 19) with
    | some t => exact Or.inr (Or.inl ⟨rfl, t, rfl, rfl⟩)
    | none => exact Or.inr (Or.inr ⟨rfl, rfl, rfl⟩)

/-- C3 (amended): for every claimed block whose trimmed user-turn contents
are pairwise distinct, the claude_response of the i-th Message is the
trimmed content of the first assistant turn that follows the i-th user
turn in that block's turn sequence (sentinel when none exists). -/
theorem C3_response_pairing_amended (jl : Str → Option (List Turn))
    (ectx : Str → List ContextDoc) (sb : List TimestampedBlock)
    (acc : List FoundConv) (b : TimestampedBlock) (data : List Turn) (e : FoundConv)
    (hreg : processBlock jl ectx sb acc b = acc ++ [e])
    (hdec : decodePayload jl b.content = some data)
    (hnd : (userMessages data).Nodup)
    (i : Nat) (m : Message) (hm : e.conversation.messages.get? i = some m) :
    m.claude_response = specResponseAfterIthUser data i := by
  rcases processBlock_append_inv jl ectx sb acc b e hreg with ⟨data', hd', _, he⟩
  rw [hdec] at hd'
  have hdd : data' = data := (Option.some.inj hd').symm
  rw [hdd] at he
  subst he
  simp only [mkEntry, buildMessages] at hm
  rw [buildMessagesAux_get?] at hm
  cases hum : (userMessages data).get? i with
  | none => rw [hum] at hm; exact absurd hm (by simp)
  | some um =>
    rw [hum] at hm
    simp only [Option.map_some'] at hm
    cases hm
    exact claudeResponseFor_nodup data hnd i um hum

/-- C3 witness: in the claimed three-turn fixture block, the first message
is paired with the assistant reply hello. -/
theorem C3_witness :
    ({ timestamp := 3, user_message := "hi".data, claude_response := "hello".data,
       context_documents := [] } : Message).claude_response =
      specResponseAfterIthUser dFull 0 :=
  C3_response_pairing_amended jlFix ectx0 [] [] bFull3 dFull
    (mkEntry jlFix ectx0 [] 0 bFull3 dFull) (by decide) (by decide) (by decide) 0 _ (by decide)

/-- C5 (amended): for every claimed block whose last decoded turn is a user
turn (hence with no assistant turn after it) whose trimmed content differs
from every earlier user turn's, the corresponding (last) Message carries
the explicit sentinel, which is not the empty string. -/
theorem C5_missing_response_sentinel_amended (jl : Str → Option (List Turn))
    (ectx : Str → List ContextDoc) (sb : List TimestampedBlock)
    (acc : List FoundConv) (b : TimestampedBlock) (pre : List Turn) (t : Turn)
    (e : FoundConv)
    (hreg : processBlock jl ectx sb acc b = acc ++ [e])
    (hdec : decodePayload jl b.content = some (pre ++ [t]))
    (hu : isUserTurn t = true)
    (hfresh : turnContent t ∉ userMessages pre)
    (m : Message) (hm : e.conversation.messages.getLast? = some m) :
    m.claude_response = noResponseSentinel ∧ noResponseSentinel ≠ [] := by
  rcases processBlock_append_inv jl ectx sb acc b e hreg with ⟨data', hd', _, he⟩
  rw [hdec] at hd'
  have hdd : data' = pre ++ [t] := (Option.some.inj hd').symm
  rw [hdd] at he
  subst he
  simp only [mkEntry, buildMessages] at hm
  have hresp := buildMessagesAux_getLast_resp jl ectx sb b.timestamp (pre ++ [t])
    (userMessages (pre ++ [t])) 0
  rw [hm] at hresp
  have hums : userMessages (pre ++ [t]) = userMessages pre ++ [turnContent t] := by
    rw [userMessages_append, userMessages_cons, if_pos hu]
    rfl
  rw [hums, List.getLast?_concat] at hresp
  simp only [Option.map_some'] at hresp
  have := Option.some.inj hresp
  rw [this, claudeResponseFor_last_fresh pre t hu hfresh]
  exact ⟨rfl, by decide⟩

/-- C5 witness: the single-user-turn fixture block yields a last message
carrying the sentinel. -/
theorem C5_witness :
    ({ timestamp := 1, user_message := "hi".data, claude_response := noResponseSentinel,
       context_documents := [] } : Message).claude_response = noResponseSentinel ∧
      noResponseSentinel ≠ [] :=
  C5_missing_response_sentinel_amended jlFix ectx0 [] [] bHi []
    { role := some roleUser, content := some "hi".data }
    (mkEntry jlFix ectx0 [] 0 bHi dHi) (by decide) (by decide) (by decide) (by decide)
    _ (by decide)

/-- C8: every conversation constructed by the reconstruction fold, and
every conversation in the final mapping, satisfies
message_count = len(messages). -/
theorem C8_message_count_invariant (jl : Str → Option (List Turn))
    (ectx : Str → List ContextDoc) (bs : List TimestampedBlock) :
    (∀ e ∈ analyzeBlocks jl ectx bs,
      e.conversation.message_count = e.conversation.messages.length) ∧
    (∀ p ∈ finalConversations jl ectx bs, p.2.message_count = p.2.messages.length) := by
  have hmk : ∀ (sb : List TimestampedBlock) (n : Nat) (b : TimestampedBlock)
      (data : List Turn),
      (mkEntry jl ectx sb n b data).conversation.message_count =
        (mkEntry jl ectx sb n b data).conversation.messages.length := by
    intro sb n b data
    simp only [mkEntry, buildMessages]
    rw [buildMessagesAux_length]
  constructor
  · intro e he
    rcases analyzeBlocks_mem jl ectx bs e he with ⟨n, b, data, _, _, _, rfl⟩
    exact hmk _ n b data
  · intro p hp
    rcases finalConversations_mem jl ectx bs p hp with ⟨n, b, data, _, _, _, hpe⟩
    rw [hpe]
    exact hmk _ n b data

/-- C8 witness: the invariant at the concrete single-block fixture run. -/
theorem C8_witness :
    (mkEntry jlFix ectx0 (sortBlocksDesc [bA2]) 0 bA2 dA).conversation.message_count =
      (mkEntry jlFix ectx0 (sortBlocksDesc [bA2]) 0 bA2 dA).conversation.messages.length :=
  (C8_message_count_invariant jlFix ectx0 [bA2]).1 _ (by decide)

/-- C10: a decoded block with no user turns is always skipped, and every
conversation in the final mapping has at least one message and a
first_message equal to its first message's user content. -/
theorem C10_no_user_turns_skipped :
    (∀ (jl : Str → Option (List Turn)) (ectx : Str → List ContextDoc)
      (sb : List TimestampedBlock) (acc : List FoundConv) (b : TimestampedBlock)
      (data : List Turn), decodePayload jl b.content = some data →
      userMessages data = [] → processBlock jl ectx sb acc b = acc) ∧
    (∀ (jl : Str → Option (List Turn)) (ectx : Str → List ContextDoc)
      (bs : List TimestampedBlock) (p : Str × Conversation),
      p ∈ finalConversations jl ectx bs →
      1 ≤ p.2.message_count ∧
      ∃ m, p.2.messages.head? = some m ∧ m.user_message = p.2.first_message) := by
  constructor
  · intro jl ectx sb acc b data hdec hums
    simp [processBlock, hdec, hums]
  · intro jl ectx bs p hp
    rcases finalConversations_mem jl ectx bs p hp with ⟨n, b, data, _, _, hne, hpe⟩
    rw [hpe]
    simp only [mkEntry, buildMessages]
    cases hums : userMessages data with
    | nil => exact absurd hums hne
    | cons u us => exact ⟨by simp, ⟨_, rfl, rfl⟩⟩

/-- C10 witness: the assistant-only fixture block is skipped. -/
theorem C10_witness : processBlock jlFix ectx0 [] [] bNoUser = [] :=
  C10_no_user_turns_skipped.1 jlFix ectx0 [] [] bNoUser dNoUser (by decide) (by decide)

/-- C2 (amended): blocks are processed in descending timestamp order, and a
decoded block with user turns is discarded iff its user-turn list
prefix-matches some already-claimed conversation's list; consequently, for
two decoded blocks in a prefix relation, at most one is registered
provided the block with the longer user-turn list is processed first
(which holds when its timestamp is the later one): if the longer block was
registered, the shorter block processed afterwards is discarded. -/
theorem C2_prefix_discard_amended (jl : Str → Option (List Turn))
    (ectx : Str → List ContextDoc) (sb : List TimestampedBlock) :
    (∀ bs : List TimestampedBlock,
      analyzeBlocks jl ectx bs =
        (sortBlocksDesc bs).foldl (processBlock jl ectx (sortBlocksDesc bs)) [] ∧
      (sortBlocksDesc bs).Pairwise (fun a c => c.timestamp ≤ a.timestamp)) ∧
    (∀ (acc : List FoundConv) (b : TimestampedBlock) (data : List Turn),
      decodePayload jl b.content = some data → userMessages data ≠ [] →
      (processBlock jl ectx sb acc b = acc ↔
        ∃ e ∈ acc, (userMessages data).length ≤ e.user_messages.length ∧
          userMessages data = e.user_messages.take (userMessages data).length)) ∧
    (∀ (l1 l2 : List TimestampedBlock) (a b : TimestampedBlock)
      (dataA dataB : List Turn),
      decodePayload jl a.content = some dataA →
      decodePayload jl b.content = some dataB →
      userMessages dataB ≠ [] →
      (userMessages dataB).length ≤ (userMessages dataA).length →
      userMessages dataB = (userMessages dataA).take (userMessages dataB).length →
      processBlock jl ectx sb (l1.foldl (processBlock jl ectx sb) []) a ≠
        l1.foldl (processBlock jl ectx sb) [] →
      processBlock jl ectx sb
          (l2.foldl (processBlock jl ectx sb)
            (processBlock jl ectx sb (l1.foldl (processBlock jl ectx sb) []) a)) b =
        l2.foldl (processBlock jl ectx sb)
          (processBlock jl ectx sb (l1.foldl (processBlock jl ectx sb) []) a)) := by
  refine ⟨fun bs => ⟨rfl, pairwise_sortBlocksDesc bs⟩,
    fun acc b data hdec hne => processBlock_discard_iff jl ectx sb acc b data hdec hne,
    ?_⟩
  intro l1 l2 a b dataA dataB hda hdb hneB hlen hpre hreg
  rcases processBlock_cases jl ectx sb (l1.foldl (processBlock jl ectx sb) []) a with
    hc | ⟨dA', hdA', _, hc⟩
  · exact absurd hc hreg
  · rw [hda] at hdA'
    have hAeq : dA' = dataA := (Option.some.inj hdA').symm
    subst hAeq
    rcases foldl_processBlock_suffix jl ectx sb l2
      (processBlock jl ectx sb (l1.foldl (processBlock jl ectx sb) []) a) with ⟨tail, ht⟩
    have hmemA : mkEntry jl ectx sb (l1.foldl (processBlock jl ectx sb) []).length a dA' ∈
        l2.foldl (processBlock jl ectx sb)
          (processBlock jl ectx sb (l1.foldl (processBlock jl ectx sb) []) a) := by
      rw [ht, hc]
      simp
    exact (processBlock_discard_iff jl ectx sb _ b dataB hdb hneB).mpr
      ⟨mkEntry jl ectx sb (l1.foldl (processBlock jl ectx sb) []).length a dA',
        hmemA, hlen, hpre⟩

/-- C1 (amended): for a log of three HISTORY blocks with timestamps
T1 < T2 < T3 where block 1 decodes to user hi and blocks 2 and 3 both
decode to user hi, assistant hello, user bye, the analyzer produces
exactly one conversation with message_count 2 and first_message hi, whose
start_time is T3, the timestamp of the newest (claimed) snapshot, rather
than T1. -/
theorem C1_end_to_end_amended (jl : Str → Option (List Turn))
    (ectx : Str → List ContextDoc) (t1 t2 t3 : Nat) (h12 : t1 < t2) (h23 : t2 < t3)
    (s1 s2 s3 c1 c23 : Str) (n1 n2 n3 : Nat)
    (hd1 : decodePayload jl c1 = some dHi)
    (hd23 : decodePayload jl c23 = some dFull) :
    (finalConversations jl ectx
        [{ timestamp := t1, timestamp_str := s1, content := c1, line_number := n1 },
         { timestamp := t2, timestamp_str := s2, content := c23, line_number := n2 },
         { timestamp := t3, timestamp_str := s3, content := c23, line_number := n3 }]).length
      = 1 ∧
    ∀ p ∈ finalConversations jl ectx
        [{ timestamp := t1, timestamp_str := s1, content := c1, line_number := n1 },
         { timestamp := t2, timestamp_str := s2, content := c23, line_number := n2 },
         { timestamp := t3, timestamp_str := s3, content := c23, line_number := n3 }],
      p.2.message_count = 2 ∧ p.2.first_message = "hi".data ∧ p.2.start_time = t3 := by
  set b1 : TimestampedBlock :=
    { timestamp := t1, timestamp_str := s1, content := c1, line_number := n1 } with hb1
  set b2 : TimestampedBlock :=
    { timestamp := t2, timestamp_str := s2, content := c23, line_number := n2 } with hb2
  set b3 : TimestampedBlock :=
    { timestamp := t3, timestamp_str := s3, content := c23, line_number := n3 } with hb3
  have e2 : insertDesc b2 [b1] = [b2, b1] := by
    show (if b1.timestamp < b2.timestamp then b2 :: b1 :: [] else b1 :: insertDesc b2 []) =
      [b2, b1]
    rw [if_pos (show b1.timestamp < b2.timestamp from h12)]
  have e3 : insertDesc b3 [b2, b1] = [b3, b2, b1] := by
    show (if b2.timestamp < b3.timestamp then b3 :: b2 :: b1 :: []
          else b2 :: insertDesc b3 [b1]) = [b3, b2, b1]
    rw [if_pos (show b2.timestamp < b3.timestamp from h23)]
  have hsort : sortBlocksDesc [b1, b2, b3] = [b3, b2, b1] := by
    simp only [sortBlocksDesc, List.foldl_cons, List.foldl_nil]
    rw [show insertDesc b1 [] = [b1] from rfl, e2, e3]
  have hne : userMessages dFull ≠ [] := by decide
  have hlenF : (userMessages dFull).length ≤ (userMessages dFull).length := le_refl _
  have hpreF : userMessages dFull = (userMessages dFull).take (userMessages dFull).length := by
    decide
  have hlenH : (userMessages dHi).length ≤ (userMessages dFull).length := by decide
  have hpreH : userMessages dHi = (userMessages dFull).take (userMessages dHi).length := by
    decide
  have h3 : processBlock jl ectx [b3, b2, b1] [] b3 =
      [mkEntry jl ectx [b3, b2, b1] 0 b3 dFull] := by
    have hd : decodePayload jl b3.content = some dFull := hd23
    simp [processBlock, hd, show (userMessages dFull).isEmpty = false by decide]
  have h2 : processBlock jl ectx [b3, b2, b1] [mkEntry jl ectx [b3, b2, b1] 0 b3 dFull] b2 =
      [mkEntry jl ectx [b3, b2, b1] 0 b3 dFull] := by
    refine (processBlock_discard_iff jl ectx [b3, b2, b1] _ b2 dFull hd23 hne).mpr ?_
    exact ⟨mkEntry jl ectx [b3, b2, b1] 0 b3 dFull, by simp, hlenF, hpreF⟩
  have h1 : processBlock jl ectx [b3, b2, b1] [mkEntry jl ectx [b3, b2, b1] 0 b3 dFull] b1 =
      [mkEntry jl ectx [b3, b2, b1] 0 b3 dFull] := by
    refine (processBlock_discard_iff jl ectx [b3, b2, b1] _ b1 dHi hd1 (by decide)).mpr ?_
    exact ⟨mkEntry jl ectx [b3, b2, b1] 0 b3 dFull, by simp, hlenH, hpreH⟩
  have hfold : analyzeBlocks jl ectx [b1, b2, b3] =
      [mkEntry jl ectx [b3, b2, b1] 0 b3 dFull] := by
    rw [analyzeBlocks, hsort, List.foldl_cons, List.foldl_cons, List.foldl_cons,
      List.foldl_nil, h3, h2, h1]
  have hfinal : finalConversations jl ectx [b1, b2, b3] =
      [("conversation_".data ++ (toString 1).data,
        (mkEntry jl ectx [b3, b2, b1] 0 b3 dFull).conversation)] := by
    rw [finalConversations, hfold]
    rfl
  rw [hfinal]
  refine ⟨rfl, ?_⟩
  intro p hp
  rcases List.mem_singleton.mp hp with rfl
  exact ⟨show (userMessages dFull).length = 2 by decide,
    show (userMessages dFull).headD [] = "hi".data by decide, rfl⟩

/-- C1 witness: the amended end-to-end property at the concrete fixture
log with timestamps 1 < 2 < 3. -/
theorem C1_witness :
    (finalConversations jlFix ectx0 [bHi, bFull2, bFull3]).length = 1 :=
  (C1_end_to_end_amended jlFix ectx0 1 2 3 (by decide) (by decide)
    "t1".data "t2".data "t3".data (mkContent pHi) (mkContent pFull) 0 1 2
    (by decide) (by decide)).1

/-- C2 witness: a block whose single user turn a prefix-matches the
already-claimed list a, b is discarded. -/
theorem C2_witness :
    processBlock jlFix ectx0 [] [mkEntry jlFix ectx0 [] 0 bAB1 dAB] bA2 =
      [mkEntry jlFix ectx0 [] 0 bAB1 dAB] :=
  ((C2_prefix_discard_amended jlFix ectx0 []).2.1
      [mkEntry jlFix ectx0 [] 0 bAB1 dAB] bA2 dA (by decide) (by decide)).mpr
    ⟨mkEntry jlFix ectx0 [] 0 bAB1 dAB, by decide, by decide, by decide⟩

/-- Fixture payload of the balanced-bracket extraction example. -/
def c4Payload : Str := "[\x7b\"role\":\"user\",\"content\":\"a[b]c\"\x7d]GARBAGE".data

/-- Expected extraction result: the array up to its matching bracket. -/
def c4Result : Str := "[\x7b\"role\":\"user\",\"content\":\"a[b]c\"\x7d]".data

/-- C4: on a payload starting with an opening bracket, the extraction scan
terminates exactly at the first position where the bracket depth (counting
only brackets outside string literals, escapes never toggling the string
flag) returns to zero, and everything after that position is dropped; in
particular the example payload with a bracketed quote and trailing garbage
is cut exactly at its matching bracket. -/
theorem C4_balanced_extraction :
    (∀ (rest : Str) (e : Nat),
      jsonEnd ('[' :: rest) = some e ↔
        (1 ≤ e ∧ e ≤ ('[' :: rest).length ∧ depthAt ('[' :: rest) e = 0 ∧
          ∀ m, 1 ≤ m → m < e → depthAt ('[' :: rest) m ≠ 0)) ∧
    (∀ (s : Str) (e : Nat), jsonEnd s = some e → extractBalanced s = s.take e) ∧
    (∀ s : Str, jsonEnd s = none → extractBalanced s = s) ∧
    extractBalanced c4Payload = c4Result := by
  refine ⟨?_, ?_, ?_, by decide⟩
  · intro rest e
    have hone : (1 : Int) ≤ (ScanSt.mk 1 false false).bc := by simp
    have hstep : jsonEnd ('[' :: rest) = jsonEndFrom (ScanSt.mk 1 false false) rest 1 := by
      rw [jsonEnd, jsonEndFrom_step]
      rw [show scanStep scanInit '[' = ScanSt.mk 1 false false from rfl]
      rw [if_neg (by rw [show scanBreak scanInit '[' = false from rfl]; simp)]
    have hfz : firstZeroAux scanInit ('[' :: rest) 0 =
        firstZeroAux (ScanSt.mk 1 false false) rest 1 := by
      rw [firstZeroAux]
      rw [show scanStep scanInit '[' = ScanSt.mk 1 false false from rfl]
      simp
    rw [hstep, jsonEndFrom_eq_firstZero rest (ScanSt.mk 1 false false) 1 hone, ← hfz,
      firstZeroAux_some_iff]
    constructor
    · intro ⟨n, hv, h1, h2, hbc, hmin⟩
      have hne : n = e := by omega
      subst hne
      exact ⟨h1, h2, hbc, hmin⟩
    · intro ⟨h1, h2, hbc, hmin⟩
      exact ⟨e, by omega, h1, h2, hbc, hmin⟩
  · intro s e h
    simp [extractBalanced, h]
  · intro s h
    simp [extractBalanced, h]

/-- C4 witness: the iff applied to the two-character payload of a single
bracket pair, whose scan ends at position 2. -/
theorem C4_witness : jsonEnd ('[' :: "]".data) = some 2 :=
  (C4_balanced_extraction.1 "]".data 2).mpr
    ⟨by decide, by decide, by decide, by
      intro m h1 h2
      have hm : m = 1 := by omega
      subst hm
      decide⟩

/-- C6: the segmenter starts a block only at a line that contains the
HISTORY marker and whose leading timestamp matches the millisecond format
anchored at line start; the block consists of that line plus all following
lines up to but not including the first later line matching the
leading-timestamp pattern (which is left to start the next entry); a
marker line with no timestamp match is skipped without terminating the
scan (as is any other line); and a marker line with no downstream
timestamp-matching line yields a block extending to end-of-file. -/
theorem C6_segmenter (pt : Str → Nat) :
    (∀ (l : Str) (ls : List Str) (i : Nat), containsHistoryMarker l = false →
      segmentBlocksAux pt (l :: ls) i = segmentBlocksAux pt ls (i + 1)) ∧
    (∀ (l : Str) (ls : List Str) (i : Nat), containsHistoryMarker l = true →
      matchTsMs l = none →
      segmentBlocksAux pt (l :: ls) i = segmentBlocksAux pt ls (i + 1)) ∧
    (∀ (l : Str) (ls : List Str) (i : Nat) (tsStr : Str),
      containsHistoryMarker l = true → matchTsMs l = some tsStr →
      segmentBlocksAux pt (l :: ls) i =
        { timestamp := pt tsStr, timestamp_str := tsStr,
          content := joinLines (l :: ls.takeWhile (fun x => !matchTsShort x)),
          line_number := i } ::
          segmentBlocksAux pt (ls.dropWhile (fun x => !matchTsShort x))
            (i + 1 + (ls.takeWhile (fun x => !matchTsShort x)).length)) ∧
    (∀ (l : Str) (ls : List Str) (i : Nat) (tsStr : Str),
      containsHistoryMarker l = true → matchTsMs l = some tsStr →
      (∀ x ∈ ls, matchTsShort x = false) →
      segmentBlocksAux pt (l :: ls) i =
        [{ timestamp := pt tsStr, timestamp_str := tsStr,
           content := joinLines (l :: ls), line_number := i }]) ∧
    (∀ (lines : List Str) (i : Nat) (b : TimestampedBlock),
      b ∈ segmentBlocksAux pt lines i →
      ∃ (l : Str) (rest : List Str), b.content = joinLines (l :: rest) ∧
        containsHistoryMarker l = true ∧ matchTsMs l = some b.timestamp_str ∧
        b.timestamp = pt b.timestamp_str ∧ ∀ x ∈ rest, matchTsShort x = false) := by
  have hskip : ∀ (l : Str) (ls : List Str) (i : Nat), containsHistoryMarker l = false →
      segmentBlocksAux pt (l :: ls) i = segmentBlocksAux pt ls (i + 1) := by
    intro l ls i hm
    simp [segmentBlocksAux, hm]
  have hnots : ∀ (l : Str) (ls : List Str) (i : Nat), containsHistoryMarker l = true →
      matchTsMs l = none →
      segmentBlocksAux pt (l :: ls) i = segmentBlocksAux pt ls (i + 1) := by
    intro l ls i hm hts
    simp [segmentBlocksAux, hm, hts]
  have hblock : ∀ (l : Str) (ls : List Str) (i : Nat) (tsStr : Str),
      containsHistoryMarker l = true → matchTsMs l = some tsStr →
      segmentBlocksAux pt (l :: ls) i =
        { timestamp := pt tsStr, timestamp_str := tsStr,
          content := joinLines (l :: ls.takeWhile (fun x => !matchTsShort x)),
          line_number := i } ::
          segmentBlocksAux pt (ls.dropWhile (fun x => !matchTsShort x))
            (i + 1 + (ls.takeWhile (fun x => !matchTsShort x)).length) := by
    intro l ls i tsStr hm hts
    simp [segmentBlocksAux, hm, hts, collectBlock_eq]
  refine ⟨hskip, hnots, hblock, ?_, ?_⟩
  · intro l ls i tsStr hm hts hall
    have htake : ls.takeWhile (fun x => !matchTsShort x) = ls :=
      List.takeWhile_eq_self_iff.mpr (fun x hx => by simp [hall x hx])
    have hdrop : ls.dropWhile (fun x => !matchTsShort x) = [] :=
      List.dropWhile_eq_nil_iff.mpr (fun x hx => by simp [hall x hx])
    rw [hblock l ls i tsStr hm hts, htake, hdrop]
    simp [segmentBlocksAux]
  · intro lines
    have key : ∀ (N : Nat) (lines : List Str), lines.length ≤ N → ∀ (i : Nat)
        (b : TimestampedBlock), b ∈ segmentBlocksAux pt lines i →
        ∃ (l : Str) (rest : List Str), b.content = joinLines (l :: rest) ∧
          containsHistoryMarker l = true ∧ matchTsMs l = some b.timestamp_str ∧
          b.timestamp = pt b.timestamp_str ∧ ∀ x ∈ rest, matchTsShort x = false := by
      intro N
      induction N with
      | zero =>
        intro lines hlen i b hb
        have : lines = [] := List.length_eq_zero.mp (Nat.le_zero.mp hlen)
        subst this
        exact absurd hb (by simp [segmentBlocksAux])
      | succ N ih =>
        intro lines hlen i b hb
        cases lines with
        | nil => exact absurd hb (by simp [segmentBlocksAux])
        | cons l ls =>
          have hlen' : ls.length ≤ N := by simpa using hlen
          cases hm : containsHistoryMarker l with
          | false =>
            rw [hskip l ls i hm] at hb
            exact ih ls hlen' (i + 1) b hb
          | true =>
            cases hts : matchTsMs l with
            | none =>
              rw [hnots l ls i hm hts] at hb
              exact ih ls hlen' (i + 1) b hb
            | some tsStr =>
              rw [hblock l ls i tsStr hm hts] at hb
              rcases List.mem_cons.mp hb with rfl | hb'
              · refine ⟨l, ls.takeWhile (fun x => !matchTsShort x), rfl, hm, hts, rfl, ?_⟩
                intro x hx
                have := List.mem_takeWhile_imp hx
                simpa using this
              · have hdlen : (ls.dropWhile (fun x => !matchTsShort x)).length ≤ N := by
                  have h1 := collectBlock_snd_length_le ls
                  rw [collectBlock_eq] at h1
                  exact Nat.le_trans h1 hlen'
                exact ih _ hdlen _ b hb'
    exact fun i b hb => key lines.length lines (Nat.le_refl _) i b hb

/-- Fixture timestamp parser for the segmenter witness. -/
def pt0 : Str → Nat := fun _ => 5

/-- Fixture line containing the HISTORY marker and a millisecond timestamp. -/
def c6Marker : Str := "2024-01-02 03:04:05,678 [HISTORY][x]".data

/-- Fixture continuation line without a leading timestamp. -/
def c6Body : Str := "body".data

/-- Fixture line starting the next log entry. -/
def c6Next : Str := "2024-01-02 03:04:06 next".data

/-- Captured timestamp text of `c6Marker`. -/
def c6Ts : Str := "2024-01-02 03:04:05,678".data

/-- C6 witness: the block-start clause at a concrete three-line log. -/
theorem C6_witness :
    segmentBlocksAux pt0 [c6Marker, c6Body, c6Next] 0 =
      { timestamp := pt0 c6Ts, timestamp_str := c6Ts,
        content := joinLines [c6Marker, c6Body], line_number := 0 } ::
        segmentBlocksAux pt0 [c6Next] 2 :=
  (C6_segmenter pt0).2.2.1 c6Marker [c6Body, c6Next] 0 c6Ts (by decide) (by decide)

/-- C1 counterexample: on a log of three HISTORY blocks timestamped
1 < 2 < 3 where block 1 decodes to user hi and blocks 2 and 3 both decode
to user hi, assistant hello, user bye, the analyzer does produce exactly
one conversation, but its start time is 3 (the newest snapshot's
timestamp), not 1 as the claim states. -/
theorem C1_counterexample :
    bHi.timestamp = 1 ∧ bFull2.timestamp = 2 ∧ bFull3.timestamp = 3 ∧
    decodePayload jlFix bHi.content = some dHi ∧
    decodePayload jlFix bFull2.content = some dFull ∧
    decodePayload jlFix bFull3.content = some dFull ∧
    (finalConversations jlFix ectx0 [bHi, bFull2, bFull3]).map (fun p => p.2.start_time)
      = [3] ∧
    (3 : Nat) ≠ 1 := by
  exact ⟨rfl, rfl, rfl, rfl, rfl, rfl, rfl, by decide⟩

/-- C2 counterexample: two decoded blocks whose user-turn lists stand in a
prefix relation are both registered when the shorter snapshot carries the
newer timestamp, so the claimed consequence fails as stated. -/
theorem C2_counterexample :
    decodePayload jlFix bA2.content = some dA ∧
    decodePayload jlFix bAB1.content = some dAB ∧
    userMessages dA = ["a".data] ∧
    userMessages dAB = ["a".data, "b".data] ∧
    (userMessages dA).length ≤ (userMessages dAB).length ∧
    userMessages dA = (userMessages dAB).take (userMessages dA).length ∧
    (analyzeBlocks jlFix ectx0 [bA2, bAB1]).map (fun fc => fc.user_messages)
      = [["a".data], ["a".data, "b".data]] := by
  exact ⟨rfl, rfl, rfl, rfl, by decide, rfl, rfl⟩

/-- C3 counterexample: in a claimed block decoding to user a, assistant r1,
user a, assistant r2, the second message's response is r1 (the search is
by content and restarts from the first matching user turn), while the
first assistant turn after the second user turn holds r2. -/
theorem C3_counterexample :
    decodePayload jlFix bDup.content = some dDup ∧
    (analyzeBlocks jlFix ectx0 [bDup]).map
        (fun fc => fc.conversation.messages.map (fun m => m.claude_response))
      = [["r1".data, "r1".data]] ∧
    specResponseAfterIthUser dDup 1 = "r2".data ∧
    "r1".data ≠ "r2".data := by
  exact ⟨rfl, rfl, rfl, by decide⟩

/-- C5 counterexample: in a claimed block decoding to user a, assistant r,
user a, the last decoded turn is a user turn with no assistant turn after
it, yet the corresponding message's response is r, not the sentinel,
because the content-based search matches the first user turn a. -/
theorem C5_counterexample :
    decodePayload jlFix bLastDup.content = some dLastDup ∧
    dLastDup.getLast? = some { role := some roleUser, content := some "a".data } ∧
    (analyzeBlocks jlFix ectx0 [bLastDup]).map
        (fun fc => fc.conversation.messages.getLast?.map (fun m => m.claude_response))
      = [some "r".data] ∧
    "r".data ≠ noResponseSentinel := by
  exact ⟨rfl, rfl, rfl, by decide⟩

end RagFlow
